import Mathlib

/-!
Verification of the email-to-notion core transforms.

The definitions below are a shallow embedding of the JavaScript sources
`src/parse.js` and `src/convert.js`.  JavaScript strings are modelled as
Lean `String` (lists of characters); the handful of regular expressions in
the source are small enough that each one is rendered as a deterministic
scanner whose behaviour coincides with the backtracking semantics of the
original pattern (the original pattern is quoted in each doc comment).
`String.prototype.toLowerCase` is modelled by `Char.toLower` (ASCII case
mapping); every case-insensitive comparison in the source involves only
ASCII characters.  The JavaScript `Date` constructor used by
`parseDateString` is host behaviour and is modelled as an explicit
function parameter.
-/

set_option maxRecDepth 4000

namespace EmailToNotion

/-- The character class `\s` of JavaScript regular expressions, which is also
the set trimmed by `String.prototype.trim` and `trimStart`. -/
def isSpaceJS (c : Char) : Bool :=
  c == ' ' || c == '\t' || c == '\n' || c == '\r' ||
  c.toNat == 11 || c.toNat == 12 || c.toNat == 0xA0 || c.toNat == 0x1680 ||
  (0x2000 ≤ c.toNat && c.toNat ≤ 0x200A) ||
  c.toNat == 0x2028 || c.toNat == 0x2029 || c.toNat == 0x202F ||
  c.toNat == 0x205F || c.toNat == 0x3000 || c.toNat == 0xFEFF

/-- JS `String.prototype.trim` on a character list. -/
def trimChars (l : List Char) : List Char :=
  List.rdropWhile isSpaceJS (List.dropWhile isSpaceJS l)

/-- JS `String.prototype.trim`. -/
def trimStr (s : String) : String :=
  String.mk (trimChars s.data)

/-- Case-insensitive literal-prefix test (`i` flag on an ASCII literal):
the first `pat.length` characters of `cs`, lowercased, equal `pat`
(`pat` is given in lowercase). -/
def ciPref (pat : String) (cs : List Char) : Bool :=
  (cs.take pat.length).map Char.toLower == pat.data

/-- Exact literal-prefix test. -/
def litPref (pat : String) (cs : List Char) : Bool :=
  cs.take pat.length == pat.data

/-- The character class `\w` = `[A-Za-z0-9_]`. -/
def isWordChar (c : Char) : Bool :=
  ('a' ≤ c && c ≤ 'z') || ('A' ≤ c && c ≤ 'Z') || ('0' ≤ c && c ≤ '9') || c == '_'

/-- Characters allowed in a sanitized client tag: `[a-z0-9]`. -/
def isTagChar (c : Char) : Bool :=
  ('a' ≤ c && c ≤ 'z') || ('0' ≤ c && c ≤ '9')

/-- Result of `parseSubject` (`parse.js` returns `{ client, subject }`). -/
structure ParsedSubject where
  client : String
  subject : String
deriving DecidableEq, Repr

/-- The match `subject.match(/^#(\w+):?\s*/)` of `parse.js:17`: on success
returns the captured `\w+` token and the remainder of the subject after the
whole match (the source takes `subject.slice(clientMatch[0].length)`).
The pattern is deterministic: `\w+` is the maximal word-character run after
`#`, the optional `:` is taken when present, and `\s*` is the maximal
whitespace run. -/
def matchClientTag (cs : List Char) : Option (List Char × List Char) :=
  match cs with
  | [] => none
  | c :: rest =>
    if c = '#' then
      let tok := rest.takeWhile isWordChar
      if tok.isEmpty then none
      else
        let r1 := rest.drop tok.length
        let r2 := match r1 with
          | ':' :: r => r
          | _ => r1
        some (tok, r2.dropWhile isSpaceJS)
    else none

/-- Sanitization of the captured client token (`parse.js:24-31`): lowercase,
keep only `[a-z0-9]`, truncate to 50 characters, and fall back to the
sentinel `missing` if nothing remains. -/
def sanitizeClient (tok : List Char) : List Char :=
  let cleaned := ((tok.map Char.toLower).filter isTagChar).take 50
  if cleaned.isEmpty then "missing".data else cleaned

/-- One step of the reply-prefix pattern `/^(fwd|fw|re|reply):\s*/i`
(`parse.js:40`): if the subject starts (case-insensitively) with one of the
four prefixes followed by `:`, drop it together with the following
whitespace run. -/
def dropReplyTag (cs : List Char) : Option (List Char) :=
  if ciPref "fwd:" cs then some ((cs.drop 4).dropWhile isSpaceJS)
  else if ciPref "fw:" cs then some ((cs.drop 3).dropWhile isSpaceJS)
  else if ciPref "re:" cs then some ((cs.drop 3).dropWhile isSpaceJS)
  else if ciPref "reply:" cs then some ((cs.drop 6).dropWhile isSpaceJS)
  else none

/-- The `while (prefixPattern.test(cleanSubject))` loop of `parse.js:41-43`,
written with explicit fuel (every iteration removes at least three
characters, so `cs.length` iterations always suffice). -/
def stripReplyChainGo : Nat → List Char → List Char
  | 0, cs => cs
  | fuel + 1, cs =>
    match dropReplyTag cs with
    | some r => stripReplyChainGo fuel r
    | none => cs

/-- Repeatedly strip reply/forward prefixes until none matches. -/
def stripReplyChain (cs : List Char) : List Char :=
  stripReplyChainGo (cs.length + 1) cs

/-- `parseSubject` of `parse.js:11-49`.  A JS `null`/`undefined` subject is
replaced by the empty string on entry, so absent input is modelled by `""`. -/
def parseSubject (subject : String) : ParsedSubject :=
  match matchClientTag subject.data with
  | some (tok, rest) =>
    ⟨String.mk (sanitizeClient tok), String.mk (trimChars (stripReplyChain rest))⟩
  | none =>
    ⟨"missing", String.mk (trimChars (stripReplyChain subject.data))⟩

/-- Result of `parseForwardedHeaders` (`parse.js` returns
`{ originalFrom, originalDate }`). -/
structure ForwardInfo where
  originalFrom : Option String
  originalDate : Option String
deriving DecidableEq, Repr

/-- The tail `\s*(.+?)(?:\n|$)` shared by the `From:` and `Date:`/`Sent:`
patterns of `parse.js:70` and `parse.js:88`, evaluated with the `m` flag.
Backtracking semantics: the greedy `\s*` first takes the maximal whitespace
run; the lazy `(.+?)` then captures up to the next newline or the end of
input (at least one non-newline character).  If the whole remainder is
whitespace, the engine gives whitespace back until `.` can match,
which lands on the last non-newline character of the run.  Returns the
capture and the remainder after the whole match (a terminating `\n` is
consumed by the `(?:\n|$)` group; a position before `\n` matches `$`
without consuming). -/
def matchHeaderTail (rest : List Char) : Option (List Char × List Char) :=
  let ws := rest.takeWhile isSpaceJS
  let tl := rest.drop ws.length
  match tl with
  | _ :: _ =>
    let cap := tl.takeWhile (fun d => d ≠ '\n')
    match tl.drop cap.length with
    | '\n' :: after1 => some (cap, after1)
    | after => some (cap, after)
  | [] =>
    -- `rest` is all whitespace: back off to its last non-newline character.
    let t := (rest.reverse.takeWhile (fun d => d = '\n')).length
    if h : rest.length ≤ t then none
    else
      some ([rest.get ⟨rest.length - t - 1, by omega⟩],
            if t = 0 then [] else List.replicate (t - 1) '\n')

/-- Global scan of `/From:\s*(.+?)(?:\n|$)/gim` (`parse.js:70-73`): collect
the capture of every match in order.  The pattern is unanchored, so a
failed attempt advances one character; a successful match resumes after the
consumed text (`lastIndex` semantics).  Fuel-driven: every step consumes at
least one character. -/
def findFromGo : Nat → List Char → List (List Char)
  | 0, _ => []
  | _, [] => []
  | fuel + 1, c :: rest =>
    if ciPref "from:" (c :: rest) then
      match matchHeaderTail ((c :: rest).drop 5) with
      | some (cap, rest1) => cap :: findFromGo fuel rest1
      | none => findFromGo fuel rest
    else findFromGo fuel rest

/-- All `From:` captures of a body text, in document order. -/
def findFromValues (cs : List Char) : List (List Char) :=
  findFromGo (cs.length + 1) cs

/-- First match of `/(?:Date|Sent):\s*(.+?)(?:\n|$)/im` (`parse.js:88-89`):
scan for the first position where `Date:` or `Sent:` (case-insensitively)
followed by the header tail matches, and return the capture. -/
def findDateGo : Nat → List Char → Option (List Char)
  | 0, _ => none
  | _, [] => none
  | fuel + 1, c :: rest =>
    if ciPref "date:" (c :: rest) || ciPref "sent:" (c :: rest) then
      match matchHeaderTail ((c :: rest).drop 5) with
      | some (cap, _) => some cap
      | none => findDateGo fuel rest
    else findDateGo fuel rest

/-- The `Date:`/`Sent:` capture used by `parseForwardedHeaders`, if any. -/
def findDateCapture (cs : List Char) : Option (List Char) :=
  findDateGo (cs.length + 1) cs

/-- Scan of `/<([^>]+)>/` inside `extractEmailFromHeader` (`parse.js:108`):
first `<` followed by at least one non-`>` character and a closing `>`. -/
def bracketScan : Nat → List Char → Option (List Char)
  | 0, _ => none
  | _, [] => none
  | fuel + 1, c :: rest =>
    if c = '<' then
      let inner := rest.takeWhile (fun d => d ≠ '>')
      if inner.isEmpty then bracketScan fuel rest
      else match rest.drop inner.length with
        | '>' :: _ => some inner
        | _ => bracketScan fuel rest
    else bracketScan fuel rest

/-- Scan of `/([^\s]+@[^\s]+)/` inside `extractEmailFromHeader`
(`parse.js:114`).  At a start position the greedy `[^\s]+` takes the maximal
non-whitespace run; backtracking for the literal `@` succeeds exactly when
the run contains an `@` that is neither its first nor its last character,
and the whole run is then captured. -/
def bareEmailScan : Nat → List Char → Option (List Char)
  | 0, _ => none
  | _, [] => none
  | fuel + 1, c :: rest =>
    if isSpaceJS c then bareEmailScan fuel rest
    else
      let run := (c :: rest).takeWhile (fun d => !isSpaceJS d)
      let okAt := (List.range run.length).any fun i =>
        decide (1 ≤ i) && decide (i + 1 < run.length) && (run.getD i ' ' == '@')
      if okAt then some run
      else bareEmailScan fuel rest

/-- `extractEmailFromHeader` of `parse.js:102-120`: angle-bracket form first,
then bare `user@host` form, both lowercased; `none` when neither matches. -/
def extractEmailFromHeader (fromString : String) : Option String :=
  if fromString = "" then none
  else
    match bracketScan (fromString.data.length + 1) fromString.data with
    | some inner => some (String.mk (inner.map Char.toLower))
    | none =>
      match bareEmailScan (fromString.data.length + 1) fromString.data with
      | some run => some (String.mk (run.map Char.toLower))
      | none => none

/-- The `while ((match = fromPattern.exec(text)))` loop of `parse.js:73-85`:
take the first `From:` value whose extracted address is not one of the
(lowercased) self addresses; a value with no extractable address is never
skipped. -/
def pickOriginalFrom (selfEmails : List String) : List (List Char) → Option String
  | [] => none
  | v :: rest =>
    let fromValue := String.mk (trimChars v)
    match extractEmailFromHeader fromValue with
    | some e =>
      if selfEmails.contains (String.mk (e.data.map Char.toLower)) then
        pickOriginalFrom selfEmails rest
      else some fromValue
    | none => some fromValue

/-- `parseDateString` of `parse.js:127-139`.  The `Date` constructor plus
`toISOString` is host behaviour, passed in as `jsDate` (returning `none`
where the host yields an invalid date). -/
def parseDateString (jsDate : String → Option String) (dateString : String) :
    Option String :=
  if dateString = "" then none else jsDate dateString

/-- `parseForwardedHeaders` of `parse.js:57-95`. -/
def parseForwardedHeaders (jsDate : String → Option String) (text : String)
    (allowedSenders : List String) : ForwardInfo :=
  if text = "" then ⟨none, none⟩
  else
    let selfEmails := allowedSenders.map
      (fun s => String.mk (s.data.map Char.toLower))
    let originalFrom := pickOriginalFrom selfEmails (findFromValues text.data)
    let originalDate :=
      match findDateCapture text.data with
      | some cap => parseDateString jsDate (String.mk (trimChars cap))
      | none => none
    ⟨originalFrom, originalDate⟩

/-- The fragment `\s*\n` used by the header-block patterns of
`parse.js:154-175`.  The greedy `\s*` may swallow newlines, and the engine
then gives characters back until the literal `\n` can match, which lands on
the last newline of the maximal whitespace run.  Returns the number of
characters consumed (through that newline), or `none` when the run contains
no newline. -/
def wsNewlineLen (cs : List Char) : Option Nat :=
  let run := cs.takeWhile isSpaceJS
  match run.reverse.findIdx? (fun c => c = '\n') with
  | some k => some (run.length - k)
  | none => none

/-- One optional header line `(Key:.*\n)?` (case-insensitive `Key:`, rest of
line, terminating newline required).  Returns the number of characters the
group consumes (0 when it does not match). -/
def optHeaderLine (key : String) (cs : List Char) : Nat :=
  if ciPref key cs then
    let body := (cs.drop key.length).takeWhile (fun c => c ≠ '\n')
    match cs.drop (key.length + body.length) with
    | '\n' :: _ => key.length + body.length + 1
    | _ => 0
  else 0

/-- Sequence of optional header lines, each tried in order at the current
position. -/
def groupsLen : List String → List Char → Nat
  | [], _ => 0
  | k :: ks, cs =>
    let n := optHeaderLine k cs
    n + groupsLen ks (cs.drop n)

/-- Gmail pattern of `parse.js:154-157`:
`^-{5,}\s*Forwarded message\s*-{5,}\s*\n(From:.*\n)?(Date:.*\n)?(Subject:.*\n)?(To:.*\n)?(Cc:.*\n)?`
with flags `gim`.  Returns the length of the match at a line start. -/
def p1Match (cs : List Char) : Option Nat :=
  let d1 := (cs.takeWhile (fun c => c = '-')).length
  if d1 < 5 then none
  else
    let s1 := ((cs.drop d1).takeWhile isSpaceJS).length
    let q1 := d1 + s1
    if ciPref "forwarded message" (cs.drop q1) then
      let q2 := q1 + 17
      let s2 := ((cs.drop q2).takeWhile isSpaceJS).length
      let q3 := q2 + s2
      let d2 := ((cs.drop q3).takeWhile (fun c => c = '-')).length
      if d2 < 5 then none
      else
        let q4 := q3 + d2
        match wsNewlineLen (cs.drop q4) with
        | some w =>
          let q5 := q4 + w
          some (q5 + groupsLen ["from:", "date:", "subject:", "to:", "cc:"]
            (cs.drop q5))
        | none => none
    else none

/-- Outlook pattern of `parse.js:160-163`:
`^_{5,}\s*\n(From:.*\n)?(Sent:.*\n)?(To:.*\n)?(Cc:.*\n)?(Subject:.*\n)?`. -/
def p2Match (cs : List Char) : Option Nat :=
  let d1 := (cs.takeWhile (fun c => c = '_')).length
  if d1 < 5 then none
  else
    match wsNewlineLen (cs.drop d1) with
    | some w =>
      let q := d1 + w
      some (q + groupsLen ["from:", "sent:", "to:", "cc:", "subject:"]
        (cs.drop q))
    | none => none

/-- Apple Mail pattern of `parse.js:166-169`:
`^Begin forwarded message:\s*\n\n?(From:.*\n)?(Subject:.*\n)?(Date:.*\n)?(To:.*\n)?(Cc:.*\n)?`. -/
def p3Match (cs : List Char) : Option Nat :=
  if ciPref "begin forwarded message:" cs then
    match wsNewlineLen (cs.drop 24) with
    | some w =>
      let q1 := 24 + w
      let q2 := match cs.drop q1 with
        | '\n' :: _ => q1 + 1
        | _ => q1
      some (q2 + groupsLen ["from:", "subject:", "date:", "to:", "cc:"]
        (cs.drop q2))
    | none => none
  else none

/-- Generic pattern of `parse.js:172-175`:
`^-{3,}\s*Original Message\s*-{3,}\s*\n(From:.*\n)?(Sent:.*\n)?(To:.*\n)?(Subject:.*\n)?`. -/
def p4Match (cs : List Char) : Option Nat :=
  let d1 := (cs.takeWhile (fun c => c = '-')).length
  if d1 < 3 then none
  else
    let s1 := ((cs.drop d1).takeWhile isSpaceJS).length
    let q1 := d1 + s1
    if ciPref "original message" (cs.drop q1) then
      let q2 := q1 + 16
      let s2 := ((cs.drop q2).takeWhile isSpaceJS).length
      let q3 := q2 + s2
      let d2 := ((cs.drop q3).takeWhile (fun c => c = '-')).length
      if d2 < 3 then none
      else
        let q4 := q3 + d2
        match wsNewlineLen (cs.drop q4) with
        | some w =>
          let q5 := q4 + w
          some (q5 + groupsLen ["from:", "sent:", "to:", "subject:"]
            (cs.drop q5))
        | none => none
    else none

/-- Inline reply pattern of `parse.js:178-181`: `^On .+wrote:\s*$` with
flags `gim`.  The greedy `.+` backtracks to the last `wrote:` of the line;
with `$` multiline, `\s*$` succeeds exactly when only whitespace follows on
that line, and the match then extends to the end of input or up to (not
including) the last newline of the whitespace run following `wrote:`. -/
def p5Match (cs : List Char) : Option Nat :=
  let line := cs.takeWhile (fun c => c ≠ '\n')
  if ciPref "on " cs then
    match ((List.range line.length).filter
      (fun q => decide (4 ≤ q) && ciPref "wrote:" (line.drop q))).getLast? with
    | some q =>
      if (line.drop (q + 6)).all isSpaceJS then
        let run := (cs.drop (q + 6)).takeWhile isSpaceJS
        if q + 6 + run.length = cs.length then some cs.length
        else
          match run.reverse.findIdx? (fun c => c = '\n') with
          | some k => some (q + 6 + (run.length - 1 - k))
          | none => none
      else none
    | none => none
  else none

/-- Global replace-with-empty of a line-anchored (`^`, flags `gim`) pattern:
at every line start attempt the match; on success delete the matched span
and resume after it, otherwise copy one character.  `atStart` tracks whether
the current position is the start of a line of the original string. -/
def gReplaceGo (m : List Char → Option Nat) : Nat → Bool → List Char → List Char
  | 0, _, cs => cs
  | _, _, [] => []
  | fuel + 1, atStart, c :: rest =>
    if atStart then
      match m (c :: rest) with
      | some (n + 1) =>
        let consumed := (c :: rest).take (n + 1)
        gReplaceGo m fuel (consumed.getLast? == some '\n') ((c :: rest).drop (n + 1))
      | _ => c :: gReplaceGo m fuel (c == '\n') rest
    else c :: gReplaceGo m fuel (c == '\n') rest

/-- Replace every match of a line-anchored pattern with the empty string. -/
def gReplace (m : List Char → Option Nat) (cs : List Char) : List Char :=
  gReplaceGo m (cs.length + 1) true cs

/-- The five sequential `.replace` passes of `stripForwardingHeaders`
(`parse.js:151-181`). -/
def headerPasses (cs : List Char) : List Char :=
  gReplace p5Match (gReplace p4Match (gReplace p3Match
    (gReplace p2Match (gReplace p1Match cs))))

/-- `stripForwardingHeaders` of `parse.js:146-184`. -/
def stripForwardingHeaders (text : String) : String :=
  if text = "" then ""
  else String.mk (trimChars (headerPasses text.data))

/-- JS `remaining.lastIndexOf(ch, fromIdx)` restricted to a character
predicate: the largest index `i ≤ fromIdx` with `p (cs.get i)`, as an
`Option` (JS returns `-1` for no occurrence). -/
def lastIdxAt (p : Char → Bool) (cs : List Char) (fromIdx : Nat) : Option Nat :=
  match (cs.take (fromIdx + 1)).reverse.findIdx? p with
  | some k => some ((cs.take (fromIdx + 1)).length - 1 - k)
  | none => none

/-- The break-point computation of `chunkText` (`convert.js:64-71`): the
`breakPoint` variable after the two conditional reassignments.  The JS
comparison `breakPoint < maxLength / 2` uses exact (floating) division,
rendered here as `2 * i < maxLength`. -/
def jsBreakPoint (maxLength : Nat) (rem : List Char) : Nat :=
  let b1 := lastIdxAt (fun c => c = '\n') rem maxLength
  let b2 := match b1 with
    | none => lastIdxAt (fun c => c = ' ') rem maxLength
    | some i =>
      if 2 * i < maxLength then lastIdxAt (fun c => c = ' ') rem maxLength
      else some i
  match b2 with
  | none => maxLength
  | some j => if 2 * j < maxLength then maxLength else j

/-- The `while (remaining.length > 0)` loop of `chunkText`
(`convert.js:54-78`), fuel-driven. -/
def chunkGo (maxLength : Nat) : Nat → List Char → List String
  | 0, _ => []
  | fuel + 1, rem =>
    if rem.isEmpty then []
    else if rem.length ≤ maxLength then [String.mk rem]
    else
      let bp := jsBreakPoint maxLength rem
      String.mk (rem.take bp) :: chunkGo maxLength fuel ((rem.drop bp).dropWhile isSpaceJS)

/-- `chunkText` of `convert.js:54-78` (both call sites use the default
`maxLength = 2000`). -/
def chunkText (text : String) (maxLength : Nat) : List String :=
  chunkGo maxLength (text.data.length + 1) text.data

/-- The Notion rich-text annotation flags (`convert.js` only writes a key
when the flag is set, so an absent key is `false`). -/
structure Annotations where
  bold : Bool := false
  italic : Bool := false
  strikethrough : Bool := false
  code : Bool := false
deriving DecidableEq, Repr

/-- One Notion rich-text object: `{ type: "text", text: { content, link? },
annotations? }`. -/
structure RichTextSpan where
  content : String
  annotations : Annotations := {}
  link : Option String := none
deriving DecidableEq, Repr

/-- The Notion block objects produced by `markdownToBlocks`
(`convert.js:220-348`). -/
inductive Block where
  | heading (level : Nat) (rich : List RichTextSpan)
  | divider
  | bulletItem (rich : List RichTextSpan)
  | numberedItem (rich : List RichTextSpan)
  | quote (rich : List RichTextSpan)
  | codeBlock (content : String) (language : String)
  | paragraph (rich : List RichTextSpan)
deriving DecidableEq, Repr

/-- Exact literal-prefix test on character lists. -/
def litPrefL (pat : List Char) (cs : List Char) : Bool :=
  cs.take pat.length == pat

/-- Lazy search for the closing delimiter of `(.+?)` patterns such as
`/\*\*(.+?)\*\*/`: consume non-newline characters one at a time, checking
for `cls` before each step once at least one character has been captured
(lazy minimal match).  Returns the capture and the remainder after the
closing delimiter. -/
def findLazyClose (cls : List Char) : Nat → List Char → List Char →
    Option (List Char × List Char)
  | 0, _, _ => none
  | fuel + 1, taken, rest =>
    if !taken.isEmpty && litPrefL cls rest then
      some (taken.reverse, rest.drop cls.length)
    else
      match rest with
      | [] => none
      | c :: r =>
        if c = '\n' then none
        else findLazyClose cls fuel (c :: taken) r

/-- Combined `.test` and `.replace(pattern, capture)` for a delimited inline
pattern `opn (.+?) cls` with the `g` flag: returns whether any match exists
and the text with every match replaced by its capture.  A position where the
opening delimiter matches but no close follows is skipped one character at a
time, as the regex engine does. -/
def stripDelimGo (opn cls : List Char) : Nat → List Char → (Bool × List Char)
  | 0, cs => (false, cs)
  | _, [] => (false, [])
  | fuel + 1, c :: rest =>
    if litPrefL opn (c :: rest) then
      match findLazyClose cls (rest.length + 1) [] ((c :: rest).drop opn.length) with
      | some (cap, after) =>
        let r := stripDelimGo opn cls fuel after
        (true, cap ++ r.2)
      | none =>
        let r := stripDelimGo opn cls fuel rest
        (r.1, c :: r.2)
    else
      let r := stripDelimGo opn cls fuel rest
      (r.1, c :: r.2)

/-- Test-and-replace for one inline formatting pattern. -/
def stripDelim (opn cls : String) (cs : List Char) : Bool × List Char :=
  stripDelimGo opn.data cls.data (cs.length + 1) cs

/-- The final `if (content) { result.push(textObj); }` of
`convert.js:199-210`: one span covering the whole remaining content, or
nothing when the content is empty. -/
def spanIfNonempty (content : List Char) (ann : Annotations) : List RichTextSpan :=
  if content.isEmpty then [] else [⟨String.mk content, ann, none⟩]

/-- `parseFormattedText` of `convert.js:161-213`: detect bold, italic,
strikethrough and inline-code markers, strip them, and attach the
corresponding annotation flags to a single span covering the whole
remaining text.  The italic branch tests both `*` and `_` patterns on the
content as it stands after the bold replacement, then applies both
replacements when either test fires. -/
def parseFormattedText (text : String) : List RichTextSpan :=
  if text = "" then []
  else
    let rBold := stripDelim "**" "**" text.data
    let c1 := rBold.2
    let tStar := (stripDelim "*" "*" c1).1
    let tUnder := (stripDelim "_" "_" c1).1
    let c2 :=
      if tStar || tUnder then (stripDelim "_" "_" (stripDelim "*" "*" c1).2).2
      else c1
    let rStrike := stripDelim "~~" "~~" c2
    let rCode := stripDelim "`" "`" rStrike.2
    let ann : Annotations := ⟨rBold.1, tStar || tUnder, rStrike.1, rCode.1⟩
    spanIfNonempty rCode.2 ann

/-- Match of `/\[([^\]]+)\]\(([^)]+)\)/` at the current position
(`convert.js:115`): returns link text, url and the remainder. -/
def linkMatchAt (cs : List Char) : Option (List Char × List Char × List Char) :=
  match cs with
  | '[' :: rest =>
    let inner := rest.takeWhile (fun c => c ≠ ']')
    if inner.isEmpty then none
    else
      match rest.drop inner.length with
      | ']' :: '(' :: rest2 =>
        let url := rest2.takeWhile (fun c => c ≠ ')')
        if url.isEmpty then none
        else
          match rest2.drop url.length with
          | ')' :: rest3 => some (inner, url, rest3)
          | _ => none
      | _ => none
  | _ => none

/-- The link-scanning loop of `parseRichText` (`convert.js:119-146`): text
before each link goes through `parseFormattedText`, each link becomes a
plain span with a url, and the trailing text is flushed at the end.
`buf` accumulates the pending plain text in reverse. -/
def parseRichTextGo : Nat → List Char → List Char → List RichTextSpan
  | 0, buf, _ => parseFormattedText (String.mk buf.reverse)
  | _ + 1, buf, [] => parseFormattedText (String.mk buf.reverse)
  | fuel + 1, buf, c :: rest =>
    match linkMatchAt (c :: rest) with
    | some (inner, url, rest3) =>
      parseFormattedText (String.mk buf.reverse) ++
        ⟨String.mk inner, {}, some (String.mk url)⟩ ::
          parseRichTextGo fuel [] rest3
    | none => parseRichTextGo fuel (c :: buf) rest

/-- `parseRichText` of `convert.js:85-154`. -/
def parseRichText (text : String) : List RichTextSpan :=
  if text = "" then []
  else
    let rt := parseRichTextGo (text.data.length + 1) [] text.data
    if rt.isEmpty then parseFormattedText text else rt

/-- The heading match `line.match(/^(#{1,3})\s+(.+)$/)` of `convert.js:239`.
Greedy `\s+` with backtracking: with `W` the maximal whitespace run after
the `#` run, the effective split consumes `min W (after.length - 1)`
whitespace characters, and the match succeeds when that leaves at least one
character with no newline among the remaining text. -/
def matchHeading (line : List Char) : Option (Nat × List Char) :=
  let n := (line.takeWhile (fun c => c = '#')).length
  if 1 ≤ n && n ≤ 3 then
    let after := line.drop n
    let w := (after.takeWhile isSpaceJS).length
    if w = 0 then none
    else
      let k := min w (after.length - 1)
      if k = 0 then none
      else
        let txt := after.drop k
        if txt.all (fun c => c ≠ '\n') then some (n, txt) else none
  else none

/-- The horizontal-rule test `/^(-{3,}|_{3,}|\*{3,})$/.test(line.trim())` of
`convert.js:256`. -/
def isHrLine (line : List Char) : Bool :=
  let t := trimChars line
  3 ≤ t.length &&
    (t.all (fun c => c = '-') || t.all (fun c => c = '_') ||
     t.all (fun c => c = '*'))

/-- The bulleted-list match `/^[-*+]\s+/` with its `replace` of
`convert.js:266-267`. -/
def matchBullet (line : List Char) : Option (List Char) :=
  match line with
  | c :: rest =>
    if c = '-' || c = '*' || c = '+' then
      let w := (rest.takeWhile isSpaceJS).length
      if w = 0 then none else some (rest.drop w)
    else none
  | [] => none

/-- The numbered-list match `/^\d+\.\s+/` with its `replace` of
`convert.js:279-280`. -/
def matchNumbered (line : List Char) : Option (List Char) :=
  let ds := line.takeWhile Char.isDigit
  if ds.isEmpty then none
  else
    match line.drop ds.length with
    | '.' :: rest =>
      let w := (rest.takeWhile isSpaceJS).length
      if w = 0 then none else some (rest.drop w)
    | _ => none

/-- The empty-quote test `/^[\s>]+$/` of `convert.js:292`. -/
def isQuoteArtifact (line : List Char) : Bool :=
  !line.isEmpty && line.all (fun c => isSpaceJS c || c = '>')

/-- The quote match `/^>\s*/` with its `replace` of `convert.js:296-297`. -/
def matchQuote (line : List Char) : Option (List Char) :=
  match line with
  | c :: rest => if c = '>' then some (rest.dropWhile isSpaceJS) else none
  | [] => none

/-- `line.startsWith("```")` of `convert.js:309`. -/
def isFenceLine (line : String) : Bool :=
  litPrefL "```".data line.data

/-- The body of one iteration of the `while (i < lines.length)` loop of
`markdownToBlocks` (`convert.js:229-345`): given the current line and the
following lines, produce the blocks pushed by the iteration and the lines
still to be processed (the fenced-code branch consumes several lines at
once, every other branch consumes only the current line). -/
def mdStep (line : String) (rest : List String) : List Block × List String :=
  if trimStr line = "" then ([], rest)
  else
    match matchHeading line.data with
    | some (n, txt) =>
      ([Block.heading n (parseRichText (String.mk txt))], rest)
    | none =>
      if isHrLine line.data then ([Block.divider], rest)
      else
        match matchBullet line.data with
        | some t => ([Block.bulletItem (parseRichText (String.mk t))], rest)
        | none =>
          match matchNumbered line.data with
          | some t => ([Block.numberedItem (parseRichText (String.mk t))], rest)
          | none =>
            if isQuoteArtifact line.data then ([], rest)
            else
              match matchQuote line.data with
              | some t => ([Block.quote (parseRichText (String.mk t))], rest)
              | none =>
                if isFenceLine line then
                  let body := rest.takeWhile (fun l => !isFenceLine l)
                  let after := (rest.drop body.length).drop 1
                  ((chunkText (String.intercalate "\n" body) 2000).map
                    (fun ch => Block.codeBlock ch "plain text"), after)
                else
                  ((chunkText line 2000).map
                    (fun ch => Block.paragraph (parseRichText ch)), rest)

/-- The `while (i < lines.length)` loop of `markdownToBlocks`, fuel-driven. -/
def mdGo : Nat → List String → List Block
  | 0, _ => []
  | _, [] => []
  | fuel + 1, line :: rest =>
    (mdStep line rest).1 ++ mdGo fuel (mdStep line rest).2

/-- `markdownToBlocks` restricted to an already-split line list. -/
def markdownLinesToBlocks (lines : List String) : List Block :=
  mdGo (lines.length + 1) lines

/-- JS `markdown.split("\n")` (`convert.js:226`): `cur` accumulates the
current line in reverse. -/
def splitNlGo (cur : List Char) : List Char → List String
  | [] => [String.mk cur.reverse]
  | c :: rest =>
    if c = '\n' then String.mk cur.reverse :: splitNlGo [] rest
    else splitNlGo (c :: cur) rest

/-- JS `markdown.split("\n")`. -/
def splitNl (s : String) : List String :=
  splitNlGo [] s.data

/-- `markdownToBlocks` of `convert.js:220-348`. -/
def markdownToBlocks (markdown : String) : List Block :=
  if markdown = "" then [] else markdownLinesToBlocks (splitNl markdown)

/-- Chunker following the words of the claim under review: break at the last
newline within the limit, else the last space within the limit, else a hard
cut exactly at the limit — with no further condition on the break point.
Everything apart from the break-point rule is as in the source. -/
def chunkSpecGo (maxLength : Nat) : Nat → List Char → List String
  | 0, _ => []
  | fuel + 1, rem =>
    if rem.isEmpty then []
    else if rem.length ≤ maxLength then [String.mk rem]
    else
      let bp := match lastIdxAt (fun c => c = '\n') rem maxLength with
        | some i => i
        | none =>
          match lastIdxAt (fun c => c = ' ') rem maxLength with
          | some j => j
          | none => maxLength
      String.mk (rem.take bp) ::
        chunkSpecGo maxLength fuel ((rem.drop bp).dropWhile isSpaceJS)

/-- Chunker following the words of the claim under review (see
`chunkSpecGo`). -/
def chunkTextSpec (text : String) (maxLength : Nat) : List String :=
  chunkSpecGo maxLength (text.data.length + 1) text.data

/-- Break point following the amended rule: the last newline within the
limit provided it lies at or beyond half the limit, else the last space
within the limit under the same proviso, else a hard cut exactly at the
limit. -/
def amendBreakPoint (maxLength : Nat) (rem : List Char) : Nat :=
  (Option.filter (fun i => maxLength ≤ 2 * i)
      (lastIdxAt (fun c => c = '\n') rem maxLength)).getD
    ((Option.filter (fun j => maxLength ≤ 2 * j)
        (lastIdxAt (fun c => c = ' ') rem maxLength)).getD maxLength)

/-- Chunker following the amended break-point rule (see `amendBreakPoint`). -/
def chunkAmendGo (maxLength : Nat) : Nat → List Char → List String
  | 0, _ => []
  | fuel + 1, rem =>
    if rem.isEmpty then []
    else if rem.length ≤ maxLength then [String.mk rem]
    else
      let bp := amendBreakPoint maxLength rem
      String.mk (rem.take bp) ::
        chunkAmendGo maxLength fuel ((rem.drop bp).dropWhile isSpaceJS)

/-- Chunker following the amended break-point rule (see `chunkAmendGo`). -/
def chunkTextAmend (text : String) (maxLength : Nat) : List String :=
  chunkAmendGo maxLength (text.data.length + 1) text.data

/-- Every `From:` value of the text has an extractable address that lies in
the (lowercased) allowed-senders set — the situation in which the `From:`
loop of `parseForwardedHeaders` skips every match. -/
def allSelf (text : String) (allowed : List String) : Bool :=
  (findFromValues text.data).all fun v =>
    match extractEmailFromHeader (String.mk (trimChars v)) with
    | some e =>
      (allowed.map (fun s => String.mk (s.data.map Char.toLower))).contains
        (String.mk (e.data.map Char.toLower))
    | none => false

/-- The first `From:` value of a body text (trimmed, as the loop of
`parse.js:74` does). -/
def firstFromValue (text : String) : Option String :=
  (findFromValues text.data).head?.map (fun v => String.mk (trimChars v))

/-! ## Helper lemmas -/

theorem length_dropWhile_le' (p : Char → Bool) (l : List Char) :
    (l.dropWhile p).length ≤ l.length := by
  induction l with
  | nil => simp
  | cons a t ih =>
    by_cases h : p a
    · rw [List.dropWhile_cons_of_pos h]
      exact le_trans ih (by simp)
    · rw [List.dropWhile_cons_of_neg h]

theorem ciPref_len {pat : String} {cs : List Char}
    (h : ciPref pat cs = true) : pat.length ≤ cs.length := by
  unfold ciPref at h
  rw [beq_iff_eq] at h
  have hlen := congrArg List.length h
  simp only [List.length_map, List.length_take] at hlen
  have hd : pat.data.length = pat.length := rfl
  omega

theorem dropReplyTag_shrink {cs r : List Char} (h : dropReplyTag cs = some r) :
    r.length < cs.length := by
  unfold dropReplyTag at h
  split at h
  case isTrue hp =>
    have h4 : (4 : Nat) ≤ cs.length := by
      have := ciPref_len hp
      have e : ("fwd:" : String).length = 4 := rfl
      omega
    cases h
    calc ((cs.drop 4).dropWhile isSpaceJS).length
        ≤ (cs.drop 4).length := length_dropWhile_le' _ _
      _ < cs.length := by simp [List.length_drop]; omega
  case isFalse =>
    split at h
    case isTrue hp =>
      have h3 : (3 : Nat) ≤ cs.length := by
        have := ciPref_len hp
        have e : ("fw:" : String).length = 3 := rfl
        omega
      cases h
      calc ((cs.drop 3).dropWhile isSpaceJS).length
          ≤ (cs.drop 3).length := length_dropWhile_le' _ _
        _ < cs.length := by simp [List.length_drop]; omega
    case isFalse =>
      split at h
      case isTrue hp =>
        have h3 : (3 : Nat) ≤ cs.length := by
          have := ciPref_len hp
          have e : ("re:" : String).length = 3 := rfl
          omega
        cases h
        calc ((cs.drop 3).dropWhile isSpaceJS).length
            ≤ (cs.drop 3).length := length_dropWhile_le' _ _
          _ < cs.length := by simp [List.length_drop]; omega
      case isFalse =>
        split at h
        case isTrue hp =>
          have h6 : (6 : Nat) ≤ cs.length := by
            have := ciPref_len hp
            have e : ("reply:" : String).length = 6 := rfl
            omega
          cases h
          calc ((cs.drop 6).dropWhile isSpaceJS).length
              ≤ (cs.drop 6).length := length_dropWhile_le' _ _
            _ < cs.length := by simp [List.length_drop]; omega
        case isFalse => cases h

theorem stripReplyChainGo_fix :
    ∀ fuel cs, cs.length < fuel →
      dropReplyTag (stripReplyChainGo fuel cs) = none := by
  intro fuel
  induction fuel with
  | zero => intro cs h; omega
  | succ f ih =>
    intro cs h
    unfold stripReplyChainGo
    cases hd : dropReplyTag cs with
    | none => simpa using hd
    | some r =>
      simp only
      exact ih r (by have := dropReplyTag_shrink hd; omega)

theorem trimChars_idem (l : List Char) : trimChars (trimChars l) = trimChars l := by
  unfold trimChars
  have h1 : List.dropWhile isSpaceJS
      (List.rdropWhile isSpaceJS (List.dropWhile isSpaceJS l)) =
      List.rdropWhile isSpaceJS (List.dropWhile isSpaceJS l) := by
    rcases hr : List.rdropWhile isSpaceJS (List.dropWhile isSpaceJS l) with _ | ⟨a, t⟩
    · simp
    · have hpre := List.rdropWhile_prefix isSpaceJS (List.dropWhile isSpaceJS l)
      rw [hr] at hpre
      obtain ⟨s, hs⟩ := hpre
      have hm := List.dropWhile_idempotent (l := l) (p := isSpaceJS)
      rw [← hs] at hm
      by_cases hpa : isSpaceJS a
      · rw [List.cons_append, List.dropWhile_cons_of_pos hpa] at hm
        have hlen := congrArg List.length hm
        rw [List.length_cons] at hlen
        have hle := length_dropWhile_le' isSpaceJS (t ++ s)
        omega
      · exact List.dropWhile_cons_of_neg hpa
  rw [h1, List.rdropWhile_idempotent]

/-! ## Claim theorems -/

/-- C1: the claim states that `parseForwardedHeaders` pairs the selected
external sender with the date of that same header block.  Evaluating the
code on the input of the test in the repository
(`test.js:175`, `extracts date from same block as sender`) shows the
sender is taken from the second (external) block while the date is taken
from the first `Date:`/`Sent:` line of the whole text, which belongs to the
self block — the code contradicts the claim and its own test.  The date
parser is instantiated with `some`, a host that accepts every nonempty date
string verbatim. -/
theorem c1_date_from_wrong_block :
    parseForwardedHeaders some
      "\n---------- Forwarded message ---------\nFrom: Me <me@example.com>\nDate: Tue, Dec 10, 2024 at 9:00 AM\nSubject: Re: Project Update\nTo: client@company.com\n\nThanks for the update!\n\n---------- Forwarded message ---------\nFrom: Client Person <client@company.com>\nDate: Mon, Dec 9, 2024 at 10:00 AM\nSubject: Project Update\nTo: me@example.com\n\nHere is the original message.\n"
      ["me@example.com"] =
      ⟨some "Client Person <client@company.com>",
       some "Tue, Dec 10, 2024 at 9:00 AM"⟩ ∧
    ("Tue, Dec 10, 2024 at 9:00 AM" : String) ≠ "Mon, Dec 9, 2024 at 10:00 AM" := by
  constructor
  · decide
  · decide

/-- C2: for every subject, the parsed tag is a non-empty lowercase
alphanumeric string of length at most 50 (sentinel `missing` included). -/
theorem c2_tag_wellformed (s : String) :
    (parseSubject s).client ≠ "" ∧
    (parseSubject s).client.length ≤ 50 ∧
    ∀ c ∈ (parseSubject s).client.data, isTagChar c = true := by
  cases h : matchClientTag s.data with
  | none =>
    have hps : (parseSubject s).client = "missing" := by
      unfold parseSubject
      rw [h]
    rw [hps]
    refine ⟨by decide, by decide, ?_⟩
    intro c hc
    fin_cases hc <;> decide
  | some pr =>
    obtain ⟨tok, rest⟩ := pr
    have hps : (parseSubject s).client = String.mk (sanitizeClient tok) := by
      unfold parseSubject
      rw [h]
    rw [hps]
    unfold sanitizeClient
    by_cases he : (((tok.map Char.toLower).filter isTagChar).take 50).isEmpty
    · simp only [he, if_true]
      refine ⟨by decide, by decide, ?_⟩
      intro c hc
      fin_cases hc <;> decide
    · simp only [he, if_false]
      refine ⟨?_, ?_, ?_⟩
      · intro hcon
        have hnil : (((tok.map Char.toLower).filter isTagChar).take 50) = [] := by
          have := congrArg String.data hcon
          simpa using this
        rw [List.isEmpty_iff] at he
        exact he hnil
      · show (((tok.map Char.toLower).filter isTagChar).take 50).length ≤ 50
        simp [List.length_take]
      · intro c hc
        have hc' := List.mem_of_mem_take hc
        exact List.of_mem_filter hc'

/-- C3: `parseSubject` strips chained forwarding prefixes: the worked
example from the specification holds, and after the stripping loop no
leading forwarding prefix remains (the loop runs until no prefix
matches). -/
theorem c3_reply_chain_stripping :
    parseSubject "#acme: Fwd: Re: Q4 Invoice" = ⟨"acme", "Q4 Invoice"⟩ ∧
    ∀ cs : List Char, dropReplyTag (stripReplyChain cs) = none := by
  refine ⟨by decide, fun cs => ?_⟩
  exact stripReplyChainGo_fix (cs.length + 1) cs (by omega)

/-- C6: the worked markup example yields exactly
`[Heading(1), BulletItem, BulletItem, Quote]`, with blank lines producing
no block. -/
theorem c6_example_blocks :
    markdownToBlocks "# Heading\n\n- item1\n- item2\n\n> quoted" =
      [Block.heading 1 [⟨"Heading", ⟨false, false, false, false⟩, none⟩],
       Block.bulletItem [⟨"item1", ⟨false, false, false, false⟩, none⟩],
       Block.bulletItem [⟨"item2", ⟨false, false, false, false⟩, none⟩],
       Block.quote [⟨"quoted", ⟨false, false, false, false⟩, none⟩]] := by
  decide

/-- C8 counterexample: on the run `**a** ~~b~~`, `parseFormattedText`
attaches two annotation categories (bold and strikethrough) to the single
resulting span, so the claim that at most one category is ever applied
fails. -/
theorem c8_two_categories_on_one_span :
    parseFormattedText "**a** ~~b~~" =
      [⟨"a b", ⟨true, false, true, false⟩, none⟩] ∧
    (parseFormattedText "**a** ~~b~~").map
      (fun sp => sp.annotations.bold && sp.annotations.strikethrough) = [true] := by
  constructor
  · decide
  · decide

/-- C8 amended: every plain run produces at most one span — all detected
formatting categories (possibly several) are attached together to the
single span covering the whole run, which carries no link. -/
theorem spanIfNonempty_shape (content : List Char) (ann : Annotations) :
    (spanIfNonempty content ann).length ≤ 1 ∧
    ∀ sp ∈ spanIfNonempty content ann, sp.link = none := by
  unfold spanIfNonempty
  split
  · simp
  · simp

/-- C8 amended: every plain run produces at most one span — all detected
formatting categories (possibly several) are attached together to the
single span covering the whole run, which carries no link. -/
theorem c8_single_span (text : String) :
    (parseFormattedText text).length ≤ 1 ∧
    ∀ sp ∈ parseFormattedText text, sp.link = none := by
  unfold parseFormattedText
  split
  · simp
  · exact spanIfNonempty_shape _ _

theorem strip_eq_of_ne (y : String) (hy : y ≠ "") :
    stripForwardingHeaders y = String.mk (trimChars (headerPasses y.data)) := by
  unfold stripForwardingHeaders
  rw [if_neg hy]

/-- C4 counterexample: `stripForwardingHeaders` is not idempotent.  On an
input whose Gmail header line is preceded by two spaces, the first
application removes nothing but its final trim moves the header to a line
start, so the second application strips it. -/
theorem c4_strip_not_idempotent :
    stripForwardingHeaders
        (stripForwardingHeaders
          "  ---------- Forwarded message ----------\nFrom: a") ≠
      stripForwardingHeaders
        "  ---------- Forwarded message ----------\nFrom: a" := by
  decide

/-- C4 amended: one application of `stripForwardingHeaders` is a fixed
point whenever its five replacement passes find nothing left to remove in
the stripped text; in particular re-application is a no-op unless the final
trim of the first application has exposed a new header match at a line
start. -/
theorem c4_conditional_idempotent (x : String)
    (h : headerPasses (stripForwardingHeaders x).data =
      (stripForwardingHeaders x).data) :
    stripForwardingHeaders (stripForwardingHeaders x) =
      stripForwardingHeaders x := by
  by_cases hx : stripForwardingHeaders x = ""
  · rw [hx]
    rfl
  · rw [strip_eq_of_ne _ hx, h]
    by_cases hx0 : x = ""
    · exact absurd (show stripForwardingHeaders x = "" by rw [hx0]; decide) hx
    · rw [strip_eq_of_ne _ hx0]
      show String.mk (trimChars (trimChars (headerPasses x.data))) =
        String.mk (trimChars (headerPasses x.data))
      exact congrArg String.mk (trimChars_idem _)

/-- C4 witness: the amended statement applied at a header-free input. -/
theorem c4_witness :
    headerPasses (stripForwardingHeaders "hello").data =
      (stripForwardingHeaders "hello").data ∧
    stripForwardingHeaders (stripForwardingHeaders "hello") =
      stripForwardingHeaders "hello" :=
  ⟨by decide, c4_conditional_idempotent "hello" (by decide)⟩

/-- C5 counterexample: the claim omits the half-limit condition of
`convert.js:66` and `convert.js:69`.  With limit 10, the last newline within
the limit sits at index 2 (below half the limit), so the code breaks at the
later space instead; a chunker following the claim verbatim breaks at the
newline. -/
theorem c5_break_rule_differs :
    chunkText "ab\ncdefgh ijklm" 10 = ["ab\ncdefgh", "ijklm"] ∧
    chunkTextSpec "ab\ncdefgh ijklm" 10 = ["ab", "cdefgh", "ijklm"] ∧
    chunkText "ab\ncdefgh ijklm" 10 ≠ chunkTextSpec "ab\ncdefgh ijklm" 10 := by
  refine ⟨by decide, by decide, by decide⟩

theorem lastIdxAt_le {p : Char → Bool} {cs : List Char} {f j : Nat}
    (h : lastIdxAt p cs f = some j) : j ≤ f := by
  unfold lastIdxAt at h
  split at h
  case h_1 k hk =>
    cases h
    have hlen : (cs.take (f + 1)).length ≤ f + 1 := by simp [List.length_take]
    omega
  case h_2 => cases h

theorem breakPoint_eq (maxLength : Nat) (rem : List Char) :
    jsBreakPoint maxLength rem = amendBreakPoint maxLength rem := by
  unfold jsBreakPoint amendBreakPoint
  rcases h1 : lastIdxAt (fun c => c = '\n') rem maxLength with _ | i
  · rcases h2 : lastIdxAt (fun c => c = ' ') rem maxLength with _ | j
    · simp [Option.filter]
    · by_cases hj : 2 * j < maxLength
      · simp only [hj, if_true, Option.filter]
        have : ¬ (maxLength ≤ 2 * j) := by omega
        simp [this]
      · simp only [hj, if_false, Option.filter]
        have : maxLength ≤ 2 * j := by omega
        simp [this]
  · by_cases hi : 2 * i < maxLength
    · simp only [hi, if_true, Option.filter]
      have hni : ¬ (maxLength ≤ 2 * i) := by omega
      rcases h2 : lastIdxAt (fun c => c = ' ') rem maxLength with _ | j
      · simp [hni]
      · by_cases hj : 2 * j < maxLength
        · have : ¬ (maxLength ≤ 2 * j) := by omega
          simp [hj, hni, this]
        · have : maxLength ≤ 2 * j := by omega
          simp [hj, hni, this]
    · have : maxLength ≤ 2 * i := by omega
      simp [hi, Option.filter, this]

theorem chunkGo_eq_amend (maxLength : Nat) :
    ∀ fuel rem, chunkGo maxLength fuel rem = chunkAmendGo maxLength fuel rem := by
  intro fuel
  induction fuel with
  | zero => intro rem; rfl
  | succ f ih =>
    intro rem
    unfold chunkGo chunkAmendGo
    rw [breakPoint_eq]
    split
    · rfl
    · split
      · rfl
      · simp only [ih]

theorem jsBreakPoint_le (maxLength : Nat) (rem : List Char) :
    jsBreakPoint maxLength rem ≤ maxLength := by
  unfold jsBreakPoint
  rcases h1 : lastIdxAt (fun c => c = '\n') rem maxLength with _ | i
  · rcases h2 : lastIdxAt (fun c => c = ' ') rem maxLength with _ | j
    · simp
    · have := lastIdxAt_le h2
      by_cases hj : 2 * j < maxLength
      · simp [hj]
      · simp [hj]; omega
  · by_cases hi : 2 * i < maxLength
    · simp only [hi, if_true]
      rcases h2 : lastIdxAt (fun c => c = ' ') rem maxLength with _ | j
      · simp
      · have := lastIdxAt_le h2
        by_cases hj : 2 * j < maxLength
        · simp [hj]
        · simp [hj]; omega
    · have := lastIdxAt_le h1
      simp only [hi, if_false]
      omega

theorem chunkGo_length_le (maxLength : Nat) :
    ∀ fuel rem ch, ch ∈ chunkGo maxLength fuel rem → ch.length ≤ maxLength := by
  intro fuel
  induction fuel with
  | zero => intro rem ch h; cases h
  | succ f ih =>
    intro rem ch h
    unfold chunkGo at h
    split at h
    · cases h
    · split at h
      case isTrue hle =>
        rw [List.mem_singleton] at h
        rw [h]
        simpa [String.length] using hle
      case isFalse hgt =>
        rcases List.mem_cons.mp h with h | h
        · rw [h]
          have hbp := jsBreakPoint_le maxLength rem
          show (rem.take (jsBreakPoint maxLength rem)).length ≤ maxLength
          simp [List.length_take]
          omega
        · exact ih _ _ h

/-- C5 amended: the chunker equals the chunker with the corrected
break-point rule (last newline within the limit provided it lies at or
beyond half the limit, else the last space under the same proviso, else a
hard cut at the limit), and every produced chunk fits the limit. -/
theorem c5_chunker_amended (text : String) (maxLength : Nat)
    (_hpos : 1 ≤ maxLength) :
    chunkText text maxLength = chunkTextAmend text maxLength ∧
    ∀ ch ∈ chunkText text maxLength, ch.length ≤ maxLength := by
  refine ⟨chunkGo_eq_amend maxLength _ _, ?_⟩
  intro ch hch
  exact chunkGo_length_le maxLength _ _ ch hch

/-- C5 witness: the amended statement applied at a concrete text and
limit. -/
theorem c5_witness :
    (1 : Nat) ≤ 5 ∧
    chunkText "hello world" 5 = chunkTextAmend "hello world" 5 ∧
    ("hello" : String).length ≤ 5 :=
  ⟨by decide, (c5_chunker_amended "hello world" 5 (by decide)).1,
    (c5_chunker_amended "hello world" 5 (by decide)).2 "hello" (by decide)⟩

/-- The backtick character (code 96). -/
def tick : Char := Char.ofNat 96

theorem fence_data {l : String} (h : isFenceLine l = true) :
    ∃ t, l.data = tick :: tick :: tick :: t := by
  unfold isFenceLine litPrefL at h
  rw [beq_iff_eq] at h
  have h3 : ("```" : String).data = [tick, tick, tick] := by decide
  rw [h3] at h
  rcases hd : l.data with _ | ⟨a, _ | ⟨b, _ | ⟨c, t⟩⟩⟩ <;> rw [hd] at h
  · have := congrArg List.length h
    simp at this
  · have := congrArg List.length h
    simp at this
  · have := congrArg List.length h
    simp at this
  · simp at h
    obtain ⟨rfl, rfl, rfl⟩ := h
    exact ⟨t, rfl⟩

theorem tick_trim_ne {t : List Char} :
    trimChars (tick :: t) ≠ [] := by
  intro hcon
  unfold trimChars at hcon
  rw [List.dropWhile_cons_of_neg (by decide)] at hcon
  rw [List.rdropWhile_eq_nil_iff] at hcon
  have := hcon tick (by simp)
  simp [tick, isSpaceJS] at this

theorem tick_head_of_trim {t m : List Char}
    (hm : trimChars (tick :: t) = m) : m = [] ∨ ∃ u, m = tick :: u := by
  unfold trimChars at hm
  rw [List.dropWhile_cons_of_neg (by decide)] at hm
  have hpre := List.rdropWhile_prefix isSpaceJS (tick :: t)
  rw [hm] at hpre
  obtain ⟨s, hs⟩ := hpre
  cases m with
  | nil => exact Or.inl rfl
  | cons a u =>
    right
    refine ⟨u, ?_⟩
    rw [List.cons_append] at hs
    have := (List.cons.injEq a (u ++ s) tick t).mp hs
    rw [this.1]

theorem mdStep_of_fence (line : String) (rest : List String)
    (h : isFenceLine line = true) :
    mdStep line rest =
      ((chunkText
          (String.intercalate "\n"
            (rest.takeWhile (fun l => !isFenceLine l))) 2000).map
        (fun ch => Block.codeBlock ch "plain text"),
       (rest.drop (rest.takeWhile (fun l => !isFenceLine l)).length).drop 1) := by
  obtain ⟨t, hd⟩ := fence_data h
  have e1 : tick ≠ '#' := by decide
  have e2 : tick ≠ '-' := by decide
  have e3 : tick ≠ '*' := by decide
  have e4 : tick ≠ '+' := by decide
  have e5 : tick ≠ '>' := by decide
  have e6 : tick.isDigit = false := by decide
  have e7 : isSpaceJS tick = false := by decide
  have e8 : tick ≠ '_' := by decide
  have hblank : trimStr line ≠ "" := by
    intro hcon
    unfold trimStr at hcon
    rw [hd] at hcon
    have : trimChars (tick :: tick :: tick :: t) = [] := by
      have := congrArg String.data hcon
      simpa using this
    exact tick_trim_ne this
  have hhead : matchHeading line.data = none := by
    rw [hd]
    unfold matchHeading
    rw [List.takeWhile_cons_of_neg (by simp [e1])]
    simp
  have hhr : isHrLine line.data = false := by
    rw [hd]
    unfold isHrLine
    rcases tick_head_of_trim (rfl :
        trimChars (tick :: tick :: tick :: t) = _) with hm | ⟨u, hm⟩
    · simp [hm]
    · simp [hm, e2, e3, e8]
  have hbul : matchBullet line.data = none := by
    rw [hd]
    unfold matchBullet
    simp [e2, e3, e4]
  have hnum : matchNumbered line.data = none := by
    rw [hd]
    unfold matchNumbered
    rw [List.takeWhile_cons_of_neg (by simp [e6])]
    simp
  have hqa : isQuoteArtifact line.data = false := by
    rw [hd]
    unfold isQuoteArtifact
    simp [e5, e7]
  have hq : matchQuote line.data = none := by
    rw [hd]
    unfold matchQuote
    simp [e5]
  unfold mdStep
  rw [if_neg hblank, hhead, hhr, hbul, hnum, hqa, hq, if_pos h]
  simp

theorem mdStep_rest_le (line : String) (rest : List String) :
    (mdStep line rest).2.length ≤ rest.length := by
  unfold mdStep
  split
  · simp
  · split
    · simp
    · split
      · simp
      · split
        · simp
        · split
          · simp
          · split
            · simp
            · split
              · simp
              · split
                · simp [List.length_drop]
                · simp

theorem mdGo_fuel :
    ∀ f1 f2 ls, ls.length < f1 → ls.length < f2 → mdGo f1 ls = mdGo f2 ls := by
  intro f1
  induction f1 with
  | zero => intro f2 ls h1 _; omega
  | succ a ih =>
    intro f2 ls h1 h2
    cases ls with
    | nil =>
      cases f2 with
      | zero => omega
      | succ b => rfl
    | cons line rest =>
      cases f2 with
      | zero => omega
      | succ b =>
        simp only [mdGo]
        have hle := mdStep_rest_le line rest
        simp only [List.length_cons] at h1 h2
        rw [ih (mdStep line rest).2.length.succ (mdStep line rest).2
              (by omega) (by omega),
            ← ih b (mdStep line rest).2 (by omega) (by omega),
            ih (mdStep line rest).2.length.succ (mdStep line rest).2
              (by omega) (by omega)]

theorem takeWhile_fence_append (body : List String) (closer : String)
    (rest : List String) (hb : ∀ l ∈ body, isFenceLine l = false)
    (hc : isFenceLine closer = true) :
    (body ++ closer :: rest).takeWhile (fun l => !isFenceLine l) = body := by
  induction body with
  | nil =>
    rw [List.nil_append, List.takeWhile_cons_of_neg]
    simp [hc]
  | cons a bs ih =>
    rw [List.cons_append, List.takeWhile_cons_of_pos]
    · rw [ih (fun l hl => hb l (List.mem_cons_of_mem a hl))]
    · simp [hb a (List.mem_cons_self a bs)]

theorem takeWhile_fence_all (body : List String)
    (hb : ∀ l ∈ body, isFenceLine l = false) :
    body.takeWhile (fun l => !isFenceLine l) = body := by
  induction body with
  | nil => rfl
  | cons a bs ih =>
    rw [List.takeWhile_cons_of_pos]
    · rw [ih (fun l hl => hb l (List.mem_cons_of_mem a hl))]
    · simp [hb a (List.mem_cons_self a bs)]

/-- C7: fenced code content is emitted verbatim.  For any opening fence
line, body lines none of which start a fence, and closing fence line, the
loop turns exactly the joined body into length-chunked Code blocks with a
generic language tag and no rich-text processing, and continues after the
closing fence; with no closing fence the body runs to the end of input. -/
theorem c7_fence_verbatim (opener closer : String) (body rest : List String)
    (hop : isFenceLine opener = true) (hcl : isFenceLine closer = true)
    (hbody : ∀ l ∈ body, isFenceLine l = false) :
    markdownLinesToBlocks (opener :: body ++ closer :: rest) =
      ((chunkText (String.intercalate "\n" body) 2000).map
        (fun ch => Block.codeBlock ch "plain text")) ++
        markdownLinesToBlocks rest ∧
    markdownLinesToBlocks (opener :: body) =
      (chunkText (String.intercalate "\n" body) 2000).map
        (fun ch => Block.codeBlock ch "plain text") := by
  constructor
  · show mdGo ((opener :: body ++ closer :: rest).length + 1) _ = _
    simp only [mdGo, List.append_eq]
    rw [mdStep_of_fence opener (body ++ closer :: rest) hop]
    rw [takeWhile_fence_append body closer rest hbody hcl]
    simp only [List.drop_left, List.drop_one, List.tail_cons]
    congr 1
    show mdGo ((opener :: body ++ closer :: rest).length) rest =
      mdGo (rest.length + 1) rest
    apply mdGo_fuel
    · simp [List.length_append]
      omega
    · omega
  · show mdGo ((opener :: body).length + 1) _ = _
    simp only [mdGo, List.append_eq]
    rw [mdStep_of_fence opener body hop]
    rw [takeWhile_fence_all body hbody]
    simp only [List.drop_length, List.drop_nil]
    have hz : ∀ n, mdGo n ([] : List String) = [] := by
      intro n
      cases n with
      | zero => rfl
      | succ m => rfl
    rw [hz, List.append_nil]

/-- C7 witness: the fence theorem applied at a concrete one-line fence. -/
theorem c7_witness :
    markdownLinesToBlocks ["```", "x", "```", "y"] =
      ((chunkText (String.intercalate "\n" ["x"]) 2000).map
        (fun ch => Block.codeBlock ch "plain text")) ++
        markdownLinesToBlocks ["y"] :=
  (c7_fence_verbatim "```" "```" ["x"] ["y"] (by decide) (by decide)
    (by intro l hl; fin_cases hl; decide)).1

theorem pickOriginalFrom_eq_none_iff (selfs : List String)
    (l : List (List Char)) :
    pickOriginalFrom selfs l = none ↔
    (l.all fun v =>
      match extractEmailFromHeader (String.mk (trimChars v)) with
      | some e => selfs.contains (String.mk (e.data.map Char.toLower))
      | none => false) = true := by
  induction l with
  | nil => simp [pickOriginalFrom]
  | cons v tl ih =>
    simp only [pickOriginalFrom, List.all_cons]
    cases hx : extractEmailFromHeader (String.mk (trimChars v)) with
    | none => simp
    | some e =>
      dsimp only
      by_cases hc :
          selfs.contains (String.mk (e.data.map Char.toLower)) = true
      · rw [if_pos hc, hc, Bool.true_and]
        exact ih
      · rw [if_neg hc]
        have hcf : selfs.contains (String.mk (e.data.map Char.toLower)) =
            false := by
          rwa [Bool.not_eq_true] at hc
        constructor
        · intro hcon
          cases hcon
        · intro hcon
          rw [hcf, Bool.false_and] at hcon
          cases hcon

/-- C9: totality and sentinel behaviour of the core: the empty subject
yields the sentinel tag and empty clean subject; the empty body yields no
sender and no date; the empty date string parses to `none`; when every
`From:` value of the body carries an extractable address lying in the self
set, no sender is returned; and a text in which the five header-stripping
passes find nothing is passed through unchanged apart from trimming. -/
theorem c9_total_sentinels :
    parseSubject "" = ⟨"missing", ""⟩ ∧
    (∀ (jd : String → Option String) (allowed : List String),
      parseForwardedHeaders jd "" allowed = ⟨none, none⟩) ∧
    (∀ jd : String → Option String, parseDateString jd "" = none) ∧
    (∀ (jd : String → Option String) (text : String) (allowed : List String),
      allSelf text allowed = true →
      (parseForwardedHeaders jd text allowed).originalFrom = none) ∧
    (∀ x : String, headerPasses x.data = x.data →
      stripForwardingHeaders x = trimStr x) := by
  refine ⟨by decide, fun jd allowed => rfl, fun jd => rfl, ?_, ?_⟩
  · intro jd text allowed hall
    by_cases htext : text = ""
    · rw [htext]
      rfl
    · unfold parseForwardedHeaders
      rw [if_neg htext]
      show pickOriginalFrom _ (findFromValues text.data) = none
      rw [pickOriginalFrom_eq_none_iff]
      exact hall
  · intro x h
    by_cases hx : x = ""
    · rw [hx]
      rfl
    · rw [strip_eq_of_ne _ hx, h]
      rfl

/-- C9 witness: the hypothesised parts of the totality statement applied at
concrete inputs. -/
theorem c9_witness :
    (parseForwardedHeaders some "From: a@b.c\n" ["a@b.c"]).originalFrom =
      none ∧
    stripForwardingHeaders "hello world" = trimStr "hello world" :=
  ⟨c9_total_sentinels.2.2.2.1 some "From: a@b.c\n" ["a@b.c"] (by decide),
   c9_total_sentinels.2.2.2.2 "hello world" (by decide)⟩

/-- C10: a `From:` value with no extractable address is accepted as the
original sender without any self-address comparison (first conjunct), and
the loop only ever skips values whose extracted address lies in the self
set: if no sender is returned at all, every `From:` value had an
extractable self address (second conjunct). -/
theorem c10_unextractable_accepted :
    (∀ (jd : String → Option String) (text : String)
        (allowed : List String) (v : String),
      firstFromValue text = some v →
      extractEmailFromHeader v = none →
      (parseForwardedHeaders jd text allowed).originalFrom = some v) ∧
    (∀ (jd : String → Option String) (text : String)
        (allowed : List String),
      (parseForwardedHeaders jd text allowed).originalFrom = none →
      allSelf text allowed = true) := by
  constructor
  · intro jd text allowed v h1 h2
    by_cases htext : text = ""
    · rw [htext] at h1
      have hz : firstFromValue "" = none := by decide
      rw [hz] at h1
      cases h1
    · unfold parseForwardedHeaders
      rw [if_neg htext]
      show pickOriginalFrom _ (findFromValues text.data) = some v
      unfold firstFromValue at h1
      rcases hlist : findFromValues text.data with _ | ⟨w, tl⟩
      · rw [hlist] at h1
        cases h1
      · rw [hlist] at h1
        simp only [List.head?_cons, Option.map_some'] at h1
        have hv : String.mk (trimChars w) = v := by injection h1
        simp only [pickOriginalFrom, hv, h2]
  · intro jd text allowed h
    by_cases htext : text = ""
    · rw [htext]
      unfold allSelf
      have hz : findFromValues ("" : String).data = [] := rfl
      rw [hz]
      rfl
    · unfold parseForwardedHeaders at h
      rw [if_neg htext] at h
      unfold allSelf
      rw [← pickOriginalFrom_eq_none_iff]
      exact h

/-- C10 witness: both conjuncts applied at concrete inputs. -/
theorem c10_witness :
    (parseForwardedHeaders some "From: The Team\nhello" []).originalFrom =
      some "The Team" ∧
    allSelf "From: a@b.c\n" ["a@b.c"] = true :=
  ⟨c10_unextractable_accepted.1 some "From: The Team\nhello" [] "The Team"
      (by decide) (by decide),
   c10_unextractable_accepted.2 some "From: a@b.c\n" ["a@b.c"] (by decide)⟩

end EmailToNotion
